import Mathlib

/-!
Shallow embedding of the bigmath arbitrary-precision math library (Go,
package bigmath) together with proofs about its specification claims.

Modelling conventions:

* A `big.Float` is modelled by `BF`: an exact extended-rational value
  (`BFVal`, carrying a negative-zero flag and signed infinities) plus the
  precision attribute.  Mantissa rounding of big.Float arithmetic is not
  modelled: arithmetic is exact, and the precision field follows Go's
  receiver rules as metadata.  Every theorem below depends only on control
  flow, precision propagation, and values on paths where the Go code also
  computes exactly (or on facts robust to rounding, as noted at the
  theorem).
* Conversion to float64 (`big.Float.Float64` together with its Accuracy
  result) is modelled faithfully by `f64FromQ`: round to nearest with ties
  to even, subnormals, underflow to zero and overflow to infinity included.
* Calls into the native float64 math library (math.Log, math.Exp, math.Sin,
  math.Sqrt) only seed iterations or feed approximation branches whose
  output values no claim depends on; they are modelled by crude computable
  rational stand-ins, each marked `Modelled:` in its doc string.
* Go panics are modelled by `Except GoPanic`; an `.error` result is an
  aborted call chain.
* Loops are modelled with explicit fuel equal to the source's iteration
  bound; `for` loops without a source-level bound get a fuel argument whose
  sufficiency (or genuine divergence) is treated where a claim needs it.
-/

namespace Bigmath

/-- Structural binary logarithm (fuel-based so that kernel evaluation
works); `natLog2 n` is the floor of log2 of `n` for `n ≥ 1`, and `0` at
`0`. -/
def natLog2F : ℕ → ℕ → ℕ
  | 0, _ => 0
  | fuel+1, n => if n ≤ 1 then 0 else natLog2F fuel (n / 2) + 1

/-- Floor of log2 over ℕ. -/
def natLog2 (n : ℕ) : ℕ := natLog2F n n

/-- Two to an integer power over ℚ. -/
def qPow2 (e : ℤ) : ℚ :=
  match e with
  | .ofNat n => ((2 ^ n : ℕ) : ℚ)
  | .negSucc n => 1 / ((2 ^ (n + 1) : ℕ) : ℚ)

/-- Floor of a rational, computed structurally (kernel-friendly). -/
def qFloor (x : ℚ) : ℤ := Int.fdiv x.num x.den

/-- Round a rational to the nearest integer, ties to even. -/
def roundHalfEven (x : ℚ) : ℤ :=
  let n := qFloor x
  let f := x - (n : ℚ)
  if f < 1/2 then n
  else if 1/2 < f then n + 1
  else if n % 2 = 0 then n else n + 1

/-- Floor of log2 of a positive rational. -/
def qFloorLog2 (q : ℚ) : ℤ :=
  let e : ℤ := (natLog2 q.num.natAbs : ℤ) - (natLog2 q.den : ℤ)
  if qPow2 e ≤ q then (if qPow2 (e + 1) ≤ q then e + 1 else e) else e - 1

/-- Accuracy of a rounded conversion, mirroring math/big's Accuracy. -/
inductive F64Acc where
  | below
  | exact
  | above
deriving DecidableEq, Repr

/-- A float64 value: a finite (dyadic) rational or an infinity. -/
inductive F64 where
  | fin (q : ℚ)
  | pinf
  | ninf
deriving DecidableEq, Repr

/-- Round a positive rational to the float64 grid (nearest, ties to even);
`none` means overflow to +Inf.  Mirrors the conversion performed by
`big.Float.Float64`. -/
def f64RoundPos (q : ℚ) : Option ℚ :=
  let e := qFloorLog2 q
  let g : ℤ := if -1022 ≤ e then e - 52 else -1074
  let m := roundHalfEven (q * qPow2 (-g))
  let r := (m : ℚ) * qPow2 g
  if qPow2 1024 ≤ r then none else some r

/-- float64 conversion of an exact rational, with its Accuracy
(result below / equal to / above the exact value, as in Go). -/
def f64FromQ (q : ℚ) : F64 × F64Acc :=
  if q = 0 then (.fin 0, .exact)
  else if 0 < q then
    match f64RoundPos q with
    | none => (.pinf, .below)
    | some r => (.fin r, if r = q then .exact else if r < q then .below else .above)
  else
    match f64RoundPos (-q) with
    | none => (.ninf, .above)
    | some r => (.fin (-r), if -r = q then .exact else if -r < q then .below else .above)

/-- Value part of a big.Float: a finite rational (with a negative-zero flag
giving the sign bit when the value is zero) or a signed infinity.
Arithmetic on these values is modelled exactly; big.Float mantissa rounding
is not modelled. -/
inductive BFVal where
  | fin (q : ℚ) (negz : Bool)
  | inf (neg : Bool)
deriving DecidableEq, Repr

/-- Model of a *big.Float: a value together with its precision attribute. -/
structure BF where
  val : BFVal
  prec : ℕ
deriving DecidableEq, Repr

/-- big.Float.Signbit. -/
def BFVal.signbit : BFVal → Bool
  | .fin q negz => decide (q < 0) || (decide (q = 0) && negz)
  | .inf neg => neg

/-- big.Float.Sign: −1, 0 or +1 (0 for both zeros). -/
def BFVal.sign : BFVal → ℤ
  | .fin q _ => if q < 0 then -1 else if 0 < q then 1 else 0
  | .inf neg => if neg then -1 else 1

/-- big.Float.IsInf. -/
def BFVal.isInf : BFVal → Bool
  | .fin _ _ => false
  | .inf _ => true

/-- big.Float.IsInt: whether the value is an integer (infinities are not). -/
def BFVal.isInt : BFVal → Bool
  | .fin q _ => decide (q.den = 1)
  | .inf _ => false

/-- big.Float.Cmp: −1, 0 or +1, with −Inf < finite < +Inf and −0 = +0. -/
def BFVal.cmp : BFVal → BFVal → ℤ
  | .inf true, .inf true => 0
  | .inf true, _ => -1
  | _, .inf true => 1
  | .inf false, .inf false => 0
  | .inf false, _ => 1
  | _, .inf false => -1
  | .fin a _, .fin b _ => if a < b then -1 else if b < a then 1 else 0

/-- big.Float.Neg (flips the sign bit of a zero). -/
def BFVal.neg : BFVal → BFVal
  | .fin q negz => if q = 0 then .fin 0 (!negz) else .fin (-q) false
  | .inf n => .inf (!n)

/-- big.Float.Abs. -/
def BFVal.abs : BFVal → BFVal
  | .fin q _ => .fin |q| false
  | .inf _ => .inf false

/-- big.Float.Add on values.  Adding infinities of opposite sign panics in
Go (ErrNaN); that case is modelled by a junk zero and is unreachable in the
theorems below. -/
def BFVal.add : BFVal → BFVal → BFVal
  | .fin a _, .fin b _ => .fin (a + b) false
  | .inf n, .fin _ _ => .inf n
  | .fin _ _, .inf n => .inf n
  | .inf n, .inf m => if n = m then .inf n else .fin 0 false

/-- big.Float.Sub on values, via addition of the negation. -/
def BFVal.sub (x y : BFVal) : BFVal := x.add y.neg

/-- big.Float.Mul on values.  Multiplying zero by an infinity panics in Go
(ErrNaN); that case is modelled by a junk zero and is unreachable in the
theorems below. -/
def BFVal.mul (x y : BFVal) : BFVal :=
  match x, y with
  | .fin a _, .fin b _ => .fin (a * b) false
  | _, _ =>
      if x.sign * y.sign = 0 then .fin 0 false
      else .inf (decide (x.sign * y.sign < 0))

/-- big.Float.Quo on values.  A finite nonzero value over zero is a signed
infinity; zero over zero and infinity over infinity panic in Go (ErrNaN) and
are modelled by junk zeros, unreachable in the theorems below. -/
def BFVal.quo (x y : BFVal) : BFVal :=
  match x, y with
  | .fin a _, .fin b _ =>
      if b = 0 then (if a = 0 then .fin 0 false else .inf (decide (a < 0)))
      else .fin (a / b) false
  | .inf n, .fin b _ => .inf (n != decide (b < 0))
  | .fin _ _, .inf _ => .fin 0 false
  | .inf _, .inf _ => .fin 0 false

/-- big.NewFloat: a fresh value carrying the float64 default 53-bit
precision. -/
def bigNewFloat (q : ℚ) : BF := ⟨.fin q false, 53⟩

/-- A fresh big.Float set to an infinity at the given precision (the
`SetInf` pattern of the source). -/
def bfInf (neg : Bool) (p : ℕ) : BF := ⟨.inf neg, p⟩

/-- A value at an explicit result precision: receiver-style big.Float
operations produce their exact value at the receiver's precision. -/
def bfAt (p : ℕ) (v : BFVal) : BF := ⟨v, p⟩

/-- big.Float.SetPrec: precision 0 collapses a finite value to a zero of
the same sign. -/
def BF.setPrec (x : BF) (p : ℕ) : BF :=
  if p = 0 then
    ⟨match x.val with | .fin _ nz => .fin 0 nz | v => v, 0⟩
  else ⟨x.val, p⟩

/-- The rational value of a finite BF (0 for infinities). -/
def BF.q (x : BF) : ℚ := match x.val with | .fin q _ => q | .inf _ => 0

/-- big.Float.Float64 of a BF value, with Accuracy; infinities convert
exactly. -/
def BF.float64 (x : BF) : F64 × F64Acc :=
  match x.val with
  | .fin q _ => f64FromQ q
  | .inf true => (.ninf, .exact)
  | .inf false => (.pinf, .exact)

/-- Comparison of a float64 against a rational constant. -/
def F64.gtc (a : F64) (c : ℚ) : Bool :=
  match a with
  | .fin q => decide (c < q)
  | .pinf => true
  | .ninf => false

/-- Comparison of a float64 against a rational constant. -/
def F64.ltc (a : F64) (c : ℚ) : Bool :=
  match a with
  | .fin q => decide (q < c)
  | .pinf => false
  | .ninf => true

/-- Whether `xFloat == math.Trunc(xFloat)` holds (true for infinities). -/
def F64.truncSelf : F64 → Bool
  | .fin q => decide (q.den = 1)
  | _ => true

/-- The rational value of a finite float64 (0 for infinities). -/
def F64.toQ : F64 → ℚ
  | .fin q => q
  | _ => 0

/-- Go panics arising in the embedded call graph. -/
inductive GoPanic where
  | domain
  | overflow
  | divZero
deriving DecidableEq, Repr

/-- Decidable equality of embedded call results. -/
instance exceptDecEq {ε α : Type} [DecidableEq ε] [DecidableEq α] :
    DecidableEq (Except ε α)
  | .error a, .error b =>
      if h : a = b then .isTrue (by rw [h]) else .isFalse (fun hc => by cases hc; exact h rfl)
  | .error _, .ok _ => .isFalse (fun hc => by cases hc)
  | .ok _, .error _ => .isFalse (fun hc => by cases hc)
  | .ok a, .ok b =>
      if h : a = b then .isTrue (by rw [h]) else .isFalse (fun hc => by cases hc; exact h rfl)

/-- Taylor loop of Exp (exp.go): `fuel` counts down the source's 199
iterations, `i` is the loop index; the per-term convergence threshold is
1/10^(prec/4), and a term beyond 1e1000 turns the result into +Inf. -/
def expLoop (x : BFVal) (prec : ℕ) : ℕ → ℕ → BFVal → BFVal → BFVal
  | 0, _, _, result => result
  | fuel+1, i, term, result =>
      let term := (term.mul x).quo (.fin (i : ℚ) false)
      let result := result.add term
      let termAbs := term.abs
      if termAbs.cmp (.fin (1 / ((10 ^ (prec / 4) : ℕ) : ℚ)) false) < 0 then result
      else if termAbs.cmp (.fin ((10 ^ 1000 : ℕ) : ℚ) false) > 0 then .inf false
      else expLoop x prec fuel (i + 1) term result

/-- Exp from exp.go: Taylor series with convergence threshold 10^(−prec/4),
an explicit ±700000 float64 input cutoff, and a cap of 199 loop
iterations.  On a 0-precision input the SetInt64 initialisation bumps the
working precision to 64. -/
def Exp (x : BF) : BF :=
  let prec := x.prec
  let rp := if prec = 0 then 64 else prec
  if x.val.sign = 0 then (bigNewFloat 1).setPrec prec
  else
    let xF := (BF.float64 x).1
    if xF.gtc 700000 then ⟨.inf false, prec⟩
    else if xF.ltc (-700000) then (bigNewFloat 0).setPrec prec
    else ⟨expLoop x.val prec 199 1 (.fin 1 false) (.fin 1 false), rp⟩

/-- math.Ldexp(1, k) as an exact rational: 2^k down to the smallest
subnormal float64 exponent −1074, underflowing to 0 below it (the call
sites never exceed the normal range upward). -/
def ldexpOne (k : ℤ) : ℚ := if -1074 ≤ k then qPow2 k else 0

/-- logToleranceForPrecision: the tiered convergence-tolerance schedule of
the logarithm file (2 raised to a precision-derived negative exponent,
produced through float64 Ldexp into a prec+20 float). -/
def logToleranceForPrecision (prec : ℕ) : BF :=
  bfAt (prec + 20) (.fin
    (if 512 ≤ prec then ldexpOne (-((prec / 8 : ℕ) : ℤ))
     else if 256 ≤ prec then ldexpOne (-((prec / 3 : ℕ) : ℤ))
     else if 128 ≤ prec then ldexpOne (-((prec / 2 : ℕ) : ℤ))
     else if 64 ≤ prec then ldexpOne (-(prec : ℤ) + 8)
     else ldexpOne (-(prec : ℤ) + 4)) false)

/-- Newton iteration bound of logNewton: int(3·log2 prec) + 20, clamped to
[15, 10000].  The float64 math.Log2 is modelled by the integer floor; the
claims use this bound only up to their stated "approximately". -/
def newtonMaxIterations (prec : ℕ) : ℕ :=
  let m := 3 * natLog2 prec + 20
  let m := if m < 15 then 15 else m
  if m > 10000 then 10000 else m

/-- Halley iteration bound of logHalley:
min(max(20, int(2·log2 prec) + 15), 5000). -/
def halleyMaxIterations (prec : ℕ) : ℕ :=
  min (max 20 (2 * natLog2 prec + 15)) 5000

/-- Taylor iteration bound of logTaylor: 2·prec + 200, clamped to
[50, 10000]. -/
def taylorMaxIterations (prec : ℕ) : ℕ :=
  let m := 2 * prec + 200
  let m := if m < 50 then 50 else m
  if m > 10000 then 10000 else m

/-- Modelled: math.Log on a float64, used only to seed the Newton/Halley
iterations (math.Log(0) = −Inf; a negative argument gives NaN, modelled by
a junk zero — both unreachable in the theorems below).  The finite positive
case is a crude floor-log2 times a rational ln 2; no claim depends on the
seed's value. -/
def f64LogModel : F64 → BFVal
  | .pinf => .inf false
  | .ninf => .fin 0 false
  | .fin q =>
      if q = 0 then .inf true
      else if q < 0 then .fin 0 false
      else .fin ((qFloorLog2 q : ℚ) * (69315 / 100000)) false

/-- Result of a capped iteration: the final value and the number of loop
iterations executed. -/
structure IterOut where
  value : BFVal
  used : ℕ
deriving DecidableEq, Repr

/-- The step-counted Newton loop of logNewton: guess update
y + 2(x − e^y)/(x + e^y), with overflow / division-by-zero panics and the
absolute-or-relative convergence test against the two tolerances. -/
def newtonLoop (prec : ℕ) (x : BF) (tol relTol : ℚ) :
    ℕ → BFVal → Option BFVal → Except GoPanic IterOut
  | 0, guess, _ => .ok ⟨guess, 0⟩
  | fuel+1, guess, prev =>
      let expGuess := Exp (bfAt prec guess)
      if expGuess.val.isInf then .error .overflow
      else
        let numerator := x.val.sub expGuess.val
        let denominator := x.val.add expGuess.val
        if denominator.sign = 0 then .error .divZero
        else
          let correction := (numerator.quo denominator).mul (.fin 2 false)
          let newGuess := guess.add correction
          match prev with
          | some pg =>
              let diff := (newGuess.sub pg).abs
              let relDiff := if newGuess.sign ≠ 0 then diff.quo newGuess.abs else diff
              if diff.cmp (.fin tol false) < 0 ∨ relDiff.cmp (.fin relTol false) < 0 then
                .ok ⟨newGuess, 1⟩
              else
                (newtonLoop prec x tol relTol fuel newGuess (some guess)).map
                  (fun r => ⟨r.value, r.used + 1⟩)
          | none =>
              (newtonLoop prec x tol relTol fuel newGuess (some guess)).map
                (fun r => ⟨r.value, r.used + 1⟩)

/-- logNewton: Newton's method for the logarithm by inverting e^y = x,
seeded from a float64 logarithm of the input.  The source's inline
tolerance switch is byte-identical to logToleranceForPrecision; the relaxed
relative tolerance 2^(−prec+12) is used from 128 bits up. -/
def logNewton (x : BF) : Except GoPanic BF :=
  if x.val.sign ≤ 0 then .error .domain
  else
    let prec := if x.prec = 0 then 53 else x.prec
    let tol := (logToleranceForPrecision prec).q
    let relTol := if 128 ≤ prec then ldexpOne (-(prec : ℤ) + 12) else tol
    let guess := f64LogModel (BF.float64 x).1
    (newtonLoop prec x tol relTol (newtonMaxIterations prec) guess none).map
      (fun r => bfAt prec r.value)

/-- The step-counted Halley loop of logHalley: update
y − 2·f·f′/(f′·(e^y + x)) for f = e^y − x, with the same panic conditions
and convergence test as Newton. -/
def halleyLoop (prec : ℕ) (x : BF) (tol relTol : ℚ) :
    ℕ → BFVal → Option BFVal → Except GoPanic IterOut
  | 0, y, _ => .ok ⟨y, 0⟩
  | fuel+1, y, prev =>
      let expY := Exp (bfAt prec y)
      if expY.val.isInf then .error .overflow
      else
        let f := expY.val.sub x.val
        let fPrime := expY.val
        let numerator := (f.mul fPrime).mul (.fin 2 false)
        let denomPart := expY.val.add x.val
        let denominator := fPrime.mul denomPart
        if denominator.sign = 0 then .error .divZero
        else
          let correction := numerator.quo denominator
          let newY := y.sub correction
          match prev with
          | some py =>
              let diff := (newY.sub py).abs
              let relDiff := if newY.sign ≠ 0 then diff.quo newY.abs else diff
              if diff.cmp (.fin tol false) < 0 ∨ relDiff.cmp (.fin relTol false) < 0 then
                .ok ⟨newY, 1⟩
              else
                (halleyLoop prec x tol relTol fuel newY (some y)).map
                  (fun r => ⟨r.value, r.used + 1⟩)
          | none =>
              (halleyLoop prec x tol relTol fuel newY (some y)).map
                (fun r => ⟨r.value, r.used + 1⟩)

/-- logHalley: Halley's method for the logarithm; +Inf input short-circuits
to +Inf at the input precision. -/
def logHalley (x : BF) : Except GoPanic BF :=
  if x.val.sign ≤ 0 then .error .domain
  else if x.val.isInf then .ok (bfInf false x.prec)
  else
    let prec := if x.prec = 0 then 53 else x.prec
    let tol := (logToleranceForPrecision prec).q
    let relTol := if 128 ≤ prec then ldexpOne (-(prec : ℤ) + 12) else tol
    let y := f64LogModel (BF.float64 x).1
    (halleyLoop prec x tol relTol (halleyMaxIterations prec) y none).map
      (fun r => bfAt prec r.value)

/-- Log: the top-level natural-logarithm dispatch.  Non-positive input
panics; input 1 returns a fresh zero; an input whose float64 conversion
reports a non-exact Accuracy returns +Inf (if infinite) or the constant
700; otherwise Newton for inputs up to 10^5 and Halley above. -/
def Log (x : BF) : Except GoPanic BF :=
  if x.val.sign ≤ 0 then .error .domain
  else if x.val.cmp (.fin 1 false) = 0 then .ok (bigNewFloat 0)
  else
    let acc := (BF.float64 x).2
    if acc = .below ∨ acc = .above then
      (if x.val.isInf then .ok (bfInf false 53) else .ok (bigNewFloat 700))
    else
      if x.val.cmp (.fin 100000 false) > 0 then logHalley x else logNewton x

/-- The scale-down loop of logTaylor (`for xWork.Cmp(two) > 0`): halve and
count; fuel-indexed, `none` when the fuel is insufficient. -/
def scaleDownF : ℕ → ℚ → ℤ → Option (ℚ × ℤ)
  | 0, q, k => if 2 < q then none else some (q, k)
  | fuel+1, q, k => if 2 < q then scaleDownF fuel (q / 2) (k + 1) else some (q, k)

/-- The scale-up loop of logTaylor (`for xWork.Cmp(half) < 0`): double and
count down; fuel-indexed, `none` when the fuel is insufficient. -/
def scaleUpF : ℕ → ℚ → ℤ → Option (ℚ × ℤ)
  | 0, q, k => if q < 1/2 then none else some (q, k)
  | fuel+1, q, k => if q < 1/2 then scaleUpF fuel (q * 2) (k - 1) else some (q, k)

/-- The float64 constant math.Ln2 (its exact double value). -/
def ln2F64 : ℚ := 6243314768165359 / 9007199254740992

/-- The scaling correction applied on every return path of logTaylor:
log x = log xWork + k·log 2. -/
def taylorFinish (k : ℤ) (r : ℚ) : ℚ := if k ≠ 0 then r + (k : ℚ) * ln2F64 else r

/-- The step-counted main loop of logTaylor: the alternating series for
log(1+u), with the partial-sum convergence check every 5th term (after the
5th) and the per-term size check at every term. -/
def taylorLoop (tol u : ℚ) (k : ℤ) :
    ℕ → ℕ → ℚ → ℚ → ℚ → Option ℚ → ℚ × ℕ
  | 0, _, _, _, result, _ => (taylorFinish k result, 0)
  | fuel+1, n, term, uPower, result, prevResult =>
      let quotient := term / (n : ℚ)
      let result := if n % 2 = 1 then result + quotient else result - quotient
      let inCheck := decide (5 < n) && decide (n % 5 = 0)
      let hitPartial := inCheck &&
        (match prevResult with
         | some pr => decide (|result - pr| < tol)
         | none => false)
      if hitPartial then (taylorFinish k result, 1)
      else
        let prevResult := if inCheck then some result else prevResult
        let uPower := uPower * u
        let term := uPower
        if |term / ((n + 1 : ℕ) : ℚ)| < tol then (taylorFinish k result, 1)
        else
          let r := taylorLoop tol u k fuel (n + 1) term uPower result prevResult
          (r.1, r.2 + 1)

/-- logTaylor: the Taylor-series logarithm with power-of-two argument
scaling.  The overall result is `none` when the source's unbounded scaling
loops never exit — which genuinely happens on +Inf input, since
Cmp(+Inf, 2) > 0 holds forever while Quo(+Inf, 2) = +Inf; for finite input
the chosen fuels always suffice (scaleDownF_isSome / scaleUpF_isSome
below).  When the scaled argument is not within 1 of 1, the source falls
back to logNewton on the original input. -/
def logTaylor (x : BF) : Option (Except GoPanic BF) :=
  if x.val.sign ≤ 0 then some (.error .domain)
  else
    match x.val with
    | .inf _ => none
    | .fin q _ =>
        let prec := if x.prec = 0 then 53 else x.prec
        let tol := (logToleranceForPrecision prec).q
        match scaleDownF (natLog2 q.num.natAbs + 2) q 0 with
        | none => none
        | some (q1, k1) =>
            match scaleUpF (natLog2 q.den + 2) q1 k1 with
            | none => none
            | some (qW, k) =>
                let u := qW - 1
                if 1 ≤ |u| then some (logNewton x)
                else
                  let r := taylorLoop tol u k (taylorMaxIterations prec) 1 u u 0 none
                  some (.ok (bfAt prec (.fin r.1 false)))

/-- isOddInteger from pow.go: an integer test, then the low bit of the
truncated big.Int value (big.Int.Bit(0) is 1 exactly for odd magnitudes,
for negative integers too). -/
def isOddInteger (f : BFVal) : Bool :=
  match f with
  | .fin q _ => decide (q.den = 1) && decide (q.num % 2 ≠ 0)
  | .inf _ => false

/-- Truncating Int64 conversion of a big.Float value; every call site in
the embedded code applies it to an integer value, where it is the
numerator. -/
def bfToInt (x : BF) : ℤ :=
  match x.val with
  | .fin q _ => q.num / (q.den : ℤ)
  | .inf _ => 0

/-- The square-and-multiply loop of PowInt; the fuel is at least the bit
length of n, so the loop always runs to n = 0. -/
def powIntLoop : ℕ → ℕ → BFVal → BFVal → BFVal
  | 0, _, result, _ => result
  | fuel+1, n, result, base =>
      if n = 0 then result
      else
        powIntLoop fuel (n / 2)
          (if n % 2 = 1 then result.mul base else result) (base.mul base)

/-- PowInt from pow.go: x**n by binary exponentiation; a negative exponent
first replaces the base by its reciprocal.  The result accumulates in a
fresh big.NewFloat(1), so it carries the default 53-bit precision. -/
def PowInt (x : BF) (n : ℤ) : BF :=
  if n = 0 then bigNewFloat 1
  else
    let m := n.natAbs
    let base := if n < 0 then (BFVal.fin 1 false).quo x.val else x.val
    ⟨powIntLoop (m + 1) m (.fin 1 false) base, 53⟩

/-- The general-case tail of Pow: exp(y · log x).  The source's nil check
on Log's result is dead code (Log panics instead of returning nil) and is
omitted.  The fresh product float takes the larger operand precision. -/
def powGeneral (x y : BF) : Except GoPanic BF :=
  (Log x).map (fun logX =>
    let yLogX : BF := ⟨y.val.mul logX.val, max y.prec logX.prec⟩
    Exp yLogX)

/-- Pow from pow.go, instrumented to also return the final state of the
argument y: the source mutates y in place through y.Abs(y) on the
integer-exponent test, and the mutated y then feeds both the PowInt call
and the general exp(y·log x) path.  x is never written through.  The
special cases are evaluated in the source's documented priority order. -/
def PowM (x y : BF) : Except GoPanic (BF × BF) :=
  let zeroV : BFVal := .fin 0 false
  let oneV : BFVal := .fin 1 false
  let negOneV : BFVal := .fin (-1) false
  -- Pow(x, ±0) = 1 for any x
  if y.val.cmp zeroV = 0 then .ok (bigNewFloat 1, y)
  -- Pow(1, y) = 1 for any y
  else if x.val.cmp oneV = 0 then .ok (bigNewFloat 1, y)
  -- Pow(x, 1) = x for any x (a fresh Copy keeps x's precision)
  else if y.val.cmp oneV = 0 then .ok (⟨x.val, x.prec⟩, y)
  else
    let xIsInf := x.val.isInf
    let yIsInf := y.val.isInf
    if x.val.cmp zeroV = 0 then
      -- ±0 base
      (if y.val.sign < 0 then
        (if y.val.isInt && isOddInteger y.val then
          -- Pow(±0, y) = ±Inf for y an odd integer < 0
          .ok (⟨.inf x.val.signbit, 53⟩, y)
         else
          -- Pow(±0, −Inf) = +Inf and Pow(±0, y < 0 not odd integer) = +Inf
          .ok (⟨.inf false, 53⟩, y))
       else if yIsInf then
        -- Pow(±0, +Inf) = +0
        .ok (bigNewFloat 0, y)
       else if y.val.isInt && isOddInteger y.val then
        -- Pow(±0, y) = ±0 for y an odd integer > 0
        (if x.val.signbit then .ok (⟨.fin 0 true, 53⟩, y)
         else .ok (bigNewFloat 0, y))
       else
        -- Pow(±0, y) = +0 for finite y > 0 not an odd integer
        .ok (bigNewFloat 0, y))
    -- Pow(−1, ±Inf) = 1
    else if x.val.cmp negOneV = 0 ∧ yIsInf then .ok (bigNewFloat 1, y)
    else
      let absX := x.val.abs
      -- infinite exponent, |x| ≠ 1 (the |x| = 1 case falls through)
      if yIsInf ∧ y.val.signbit ∧ absX.cmp oneV > 0 then .ok (bigNewFloat 0, y)
      else if yIsInf ∧ y.val.signbit ∧ absX.cmp oneV < 0 then .ok (⟨.inf false, 53⟩, y)
      else if yIsInf ∧ ¬y.val.signbit ∧ absX.cmp oneV > 0 then .ok (⟨.inf false, 53⟩, y)
      else if yIsInf ∧ ¬y.val.signbit ∧ absX.cmp oneV < 0 then .ok (bigNewFloat 0, y)
      else if xIsInf then
        (if x.val.signbit then
          -- Pow(−Inf, y) = Pow(−0, −y), implemented directly
          let negY := y.val.neg
          (if negY.sign < 0 then
            (if negY.isInt && isOddInteger negY then .ok (⟨.inf true, 53⟩, y)
             else .ok (⟨.inf false, 53⟩, y))
           else if negY.sign > 0 then
            (if negY.isInt && isOddInteger negY then .ok (⟨.fin 0 true, 53⟩, y)
             else .ok (bigNewFloat 0, y))
           else .ok (bigNewFloat 1, y))
         else
          -- Pow(+Inf, y) = +Inf for y > 0, +0 for y < 0
          (if y.val.sign > 0 then .ok (⟨.inf false, 53⟩, y)
           else .ok (bigNewFloat 0, y)))
      -- finite x < 0 with finite non-integer y: +Inf sentinel for undefined
      else if x.val.sign < 0 ∧ ¬(y.val.isInt = true) then .ok (⟨.inf false, 53⟩, y)
      else if y.val.isInt then
        -- y.Abs(y) mutates y in place before the magnitude test
        let y2 : BF := ⟨y.val.abs, y.prec⟩
        if y2.val.cmp (.fin 1000000 false) < 0 then
          .ok (PowInt x (bfToInt y2), y2)
        else
          (powGeneral x y2).map (fun r => (r, y2))
      else
        (powGeneral x y).map (fun r => (r, y))

/-- Pow as the caller sees it: the result component of PowM. -/
def Pow (x y : BF) : Except GoPanic BF := (PowM x y).map Prod.fst

/-- PowFloat64 from pow.go on the float64 model type: the NaN cases are not
representable here; y = 0 and x = 1 short-circuit, everything else wraps
the inputs into big.Floats (53-bit, infinities preserved) and delegates to
Pow. -/
def bfFromF64 : F64 → BF
  | .fin q => bigNewFloat q
  | .pinf => ⟨.inf false, 53⟩
  | .ninf => ⟨.inf true, 53⟩

/-- PowFloat64: the float64-accepting wrapper of Pow. -/
def PowFloat64 (x y : F64) : Except GoPanic BF :=
  if (match y with | .fin q => decide (q = 0) | _ => false) then .ok (bigNewFloat 1)
  else if (match x with | .fin q => decide (q = 1) | _ => false) then .ok (bigNewFloat 1)
  else Pow (bfFromF64 x) (bfFromF64 y)

/-- The float64 constant math.Pi (its exact double value). -/
def f64Pi : ℚ := 884279719003555 / 281474976710656

/-- The float64 constant math.E (its exact double value). -/
def f64E : ℚ := 6121026514868073 / 2251799813685248

/-- Modelled: a crude rational logarithm (floor-log2 times a rational
ln 2), shared by the float64 math-library stand-ins; no claim depends on
its value. -/
def qLogCrude (q : ℚ) : ℚ := if 0 < q then (qFloorLog2 q : ℚ) * (69315 / 100000) else 0

/-- Exponential-series accumulator for the math.Exp stand-in. -/
def expSeriesF : ℕ → ℚ → ℕ → ℚ → ℚ → ℚ
  | 0, _, _, _, acc => acc
  | fuel+1, x, i, term, acc =>
      let term := term * x / (i : ℚ)
      expSeriesF fuel x (i + 1) term (acc + term)

/-- Modelled: math.Exp on a float64 (30 Taylor terms); feeds only
approximation branches whose values no claim depends on. -/
def f64ExpModel (q : ℚ) : ℚ := expSeriesF 30 q 1 1 1

/-- Modelled: math.Pow on a float64 via exp(y·log x) with the other
stand-ins; feeds only approximation branches whose values no claim depends
on. -/
def f64PowModel (x y : ℚ) : ℚ := f64ExpModel (y * qLogCrude x)

/-- Sine-series accumulator for the math.Sin stand-in. -/
def sinSeriesF : ℕ → ℚ → ℕ → ℚ → ℚ → ℚ
  | 0, _, _, _, acc => acc
  | fuel+1, x2, n, term, acc =>
      let term := -term * x2 / (((2 * n) * (2 * n + 1) : ℕ) : ℚ)
      sinSeriesF fuel x2 (n + 1) term (acc + term)

/-- Modelled: math.Sin on a float64 (15 Taylor terms); feeds only
approximation branches whose values no claim depends on. -/
def f64SinModel (q : ℚ) : ℚ := sinSeriesF 15 (q * q) 1 q q

/-- Newton descent for the integer square root (structural so the kernel
can evaluate it). -/
def natSqrtF : ℕ → ℕ → ℕ → ℕ
  | 0, _, g => g
  | fuel+1, n, g =>
      let g' := (g + n / g) / 2
      if g' < g then natSqrtF fuel n g' else g

/-- Modelled: integer square root, used by the square-root stand-ins. -/
def natSqrtModel (n : ℕ) : ℕ :=
  if n ≤ 1 then n else natSqrtF (natLog2 n + 4) n (2 ^ (natLog2 n / 2 + 2))

/-- Modelled: math.Sqrt on a float64 (53 fractional bits); feeds only
approximation branches whose values no claim depends on. -/
def f64SqrtModel (q : ℚ) : ℚ :=
  if q < 0 then 0
  else ((natSqrtModel (q.num.natAbs * q.den * 4 ^ 53) : ℕ) : ℚ) / (((q.den * 2 ^ 53 : ℕ) : ℕ) : ℚ)

/-- Godfrey's g = 7, N = 9 Lanczos series (the decimal literal values of
the source's godfreysCoefficients; float64 rounding of the constants is not
modelled). -/
def lanczosSeries (z : ℚ) : ℚ :=
  99999999999980993 / 100000000000000000
  + (6765203681218851 / 10000000000000) / (z + 1)
  + (-12591392167224028 / 10000000000000) / (z + 2)
  + (77132342877765313 / 100000000000000) / (z + 3)
  + (-17661502916214059 / 100000000000000) / (z + 4)
  + (12507343278686905 / 1000000000000000) / (z + 5)
  + (-13857109526572012 / 100000000000000000) / (z + 6)
  + (99843695780195716 / 10000000000000000000000) / (z + 7)
  + (15056327351493116 / 100000000000000000000000) / (z + 8)

/-- big.Int.BitLen. -/
def intBitLen (v : ℤ) : ℕ := if v = 0 then 0 else natLog2 v.natAbs + 1

/-- big.Float.SetInt on a fresh float: precision max(BitLen, 64), value
exact at that precision. -/
def bfSetIntZ (v : ℤ) : BF := ⟨.fin (v : ℚ) false, max (intBitLen v) 64⟩

/-- The product computed by the ascending loop of Factorial
(result *= i for i = 2..n). -/
def facNat : ℕ → ℤ
  | 0 => 1
  | n+1 => facNat n * ((n + 1 : ℕ) : ℤ)

/-- Factorial from the factorial file: n! over big.Int, 0 for negative
arguments (big.Int has no NaN to signal with). -/
def FactorialZ (n : ℤ) : ℤ := if n < 0 then 0 else facNat n.natAbs

/-- gammaStirling: √(2π/x)·(x/e)^x, computed on float64 values and then
through PowFloat64 (so panics can propagate from the general Pow path). -/
def gammaStirlingF (x : BF) : Except GoPanic BF :=
  let xF := ((BF.float64 x).1).toQ
  let twoPiOverX := 2 * f64Pi / xF
  let sqrtTerm := bigNewFloat (f64SqrtModel twoPiOverX)
  let xOverE := xF / f64E
  (PowFloat64 (.fin xOverE) (.fin xF)).map (fun powerTerm =>
    ⟨sqrtTerm.val.mul powerTerm.val, max sqrtTerm.prec powerTerm.prec⟩)

/-- gammaLanczosStandard: Godfrey-coefficient Lanczos evaluation in float64
arithmetic (modelled exactly over ℚ), with the reflection recursion for
xFloat < 0.5; the fuel bounds that recursion (its depth is 1). -/
def gammaLanczosStandardF : ℕ → BF → BF
  | 0, _ => ⟨.inf false, 53⟩
  | fuel+1, x =>
      let xF := ((BF.float64 x).1).toQ
      if xF < 1/2 then
        let piX := f64Pi * xF
        let sinPiX := f64SinModel piX
        if |sinPiX| < 1 / ((10 ^ 15 : ℕ) : ℚ) then ⟨.inf false, 53⟩
        else
          let g := gammaLanczosStandardF fuel (bigNewFloat (1 - xF))
          let gF := ((BF.float64 g).1).toQ
          bigNewFloat (f64Pi / (sinPiX * gF))
      else
        let z := xF - 1
        let series := lanczosSeries z
        let t := z + 7 + 1/2
        let sqrt2Pi := f64SqrtModel (2 * f64Pi)
        bigNewFloat (sqrt2Pi * f64PowModel t (z + 1/2) * f64ExpModel (-t) * series)

/-- Selector for the mutually recursive gamma-family functions; the
source's mutual recursion (Gamma ↔ gammaReflection, Gamma → FactorialFloat
→ Gamma, gammaLanczosHighPrecision → gammaReflection) is linearized over a
single fuel so that the kernel can evaluate it. -/
inductive GammaCall where
  | gamma
  | reflection
  | lanczos
  | lanczosHigh
  | factorialFloat
deriving DecidableEq, Repr

/-- The gamma-family bodies, one per selector, translated from the gamma
file; the second result component is the final state of the argument x
(only FactorialFloat mutates it).  The fuel-0 fallback is unreachable from
the exported entry points (the recursion depth in the source is at most
2). -/
def gammaRec : ℕ → GammaCall → BF → Except GoPanic (BF × BF)
  | 0, _, x => .ok (⟨.inf false, 53⟩, x)
  | fuel+1, c, x =>
      match c with
      | .gamma =>
          -- Gamma: pole for non-positive integers (and zeros), reflection
          -- for non-positive non-integers, exact factorial for positive
          -- integers below 171, Stirling above 15, Lanczos otherwise.
          let xF := (BF.float64 x).1
          if x.val.sign ≤ 0 then
            (if xF.truncSelf then .ok (⟨.inf false, 53⟩, x)
             else (gammaRec fuel .reflection x).map (fun r => (r.1, x)))
          else if xF.truncSelf && xF.ltc 171 then
            -- n := int64(xFloat); here xFloat is a nonnegative integer double
            (if xF.toQ = 1 then .ok (bigNewFloat 1, x)
             else
              (gammaRec fuel .factorialFloat (bigNewFloat (xF.toQ - 1))).map
                (fun r => (r.1, x)))
          else if xF.gtc 15 then (gammaStirlingF x).map (fun r => (r, x))
          else (gammaRec fuel .lanczos x).map (fun r => (r.1, x))
      | .reflection =>
          -- gammaReflection: Γ(x) = π/(sin(πx)·Γ(1−x)), recursing into
          -- Gamma on 1−x; near a pole of sin the +Inf sentinel is returned.
          let xF := ((BF.float64 x).1).toQ
          let oneMinusX : BF := ⟨(BFVal.fin 1 false).sub x.val, max 53 x.prec⟩
          if oneMinusX.val.sign > 0 then
            (gammaRec fuel .gamma oneMinusX).map (fun r =>
              let gammaOneMinusX := r.1
              let piX := f64Pi * xF
              let sinPiX := f64SinModel piX
              if |sinPiX| < 1 / ((10 ^ 15 : ℕ) : ℚ) then (⟨.inf false, 53⟩, x)
              else
                let piOverSin := bigNewFloat (f64Pi / sinPiX)
                (⟨piOverSin.val.quo gammaOneMinusX.val,
                  max piOverSin.prec gammaOneMinusX.prec⟩, x))
          else .ok (⟨.inf false, 53⟩, x)
      | .lanczos =>
          -- gammaLanczos: precision dispatch between the standard
          -- (≤ 64 bits) and the high-precision Lanczos paths.
          let prec := if x.prec = 0 then 53 else x.prec
          if 64 < prec then gammaRec fuel .lanczosHigh x
          else .ok (gammaLanczosStandardF fuel x, x)
      | .lanczosHigh =>
          -- gammaLanczosHighPrecision: the partial high-precision path,
          -- which per its own TODO evaluates the standard Godfrey
          -- coefficients in big.Float arithmetic, falling back to
          -- reflection for negative input and to the standard path below
          -- 0.5.
          let prec := if x.prec = 0 then 128 else x.prec
          if x.val.sign < 0 then gammaRec fuel .reflection x
          else
            let xF := ((BF.float64 x).1).toQ
            if xF < 1/2 then .ok (gammaLanczosStandardF fuel x, x)
            else
              let z : BF := bfAt prec (x.val.sub (.fin 1 false))
              let zF := ((BF.float64 z).1).toQ
              let series := lanczosSeries z.q
              let t := zF + 7 + 1/2
              let sqrt2Pi : ℚ :=
                25066282746310005024157652848110452530069867406099383166299235763422936546078419749465068006094665 / 10 ^ 97
              let tBig : BF := bfAt prec (.fin t false)
              let zPlusHalf : BF := bfAt prec (.fin (zF + 1/2) false)
              (Pow tBig zPlusHalf).map (fun tPower =>
                let expTerm := Exp (bfAt prec (.fin (-t) false))
                (bfAt prec
                  (((BFVal.fin sqrt2Pi false).mul tPower.val).mul expTerm.val
                    |>.mul (.fin series false)), x))
      | .factorialFloat =>
          -- FactorialFloat: +Inf sentinel for negative x, the exact
          -- big.Int factorial for integer x, and Gamma(x.Add(x, 1))
          -- otherwise — the Add writes x+1 back into the caller's x.
          if x.val.sign < 0 then .ok (⟨.inf false, 53⟩, x)
          else if x.val.isInt then .ok (bfSetIntZ (FactorialZ (bfToInt x)), x)
          else
            let xAfter : BF :=
              ⟨x.val.add (.fin 1 false), if x.prec = 0 then 53 else x.prec⟩
            (gammaRec fuel .gamma xAfter).map (fun r => (r.1, xAfter))

/-- Gamma at the default recursion fuel. -/
def Gamma (x : BF) : Except GoPanic BF := (gammaRec 6 .gamma x).map Prod.fst

/-- FactorialFloat at the default recursion fuel, instrumented with the
final state of its argument. -/
def FactorialFloat (x : BF) : Except GoPanic (BF × BF) := gammaRec 6 .factorialFloat x

/-- Modelled: the package-level bigPi constant, computed once at start-up
by ComputePi(1000); modelled by a fixed rational approximation of π at
precision 1000 (no claim depends on its value). -/
def bigPi : BF := ⟨.fin f64Pi false, 1000⟩

/-- Modelled: big.Float.Sqrt by the rational square-root stand-in; no claim
depends on its value. -/
def bfSqrtModel (v : BFVal) : BFVal :=
  match v with
  | .fin q _ => .fin (f64SqrtModel q) false
  | .inf n => .inf n

/-- The arcsine Taylor loop of Asin: term *= x²·(2n−1)/((2n)(2n+1)),
accumulated until the term drops below 10^(−precision/4), for at most the
source's 199 iterations. -/
def asinTaylorLoop (x2 threshold : BFVal) : ℕ → ℕ → BFVal → BFVal → BFVal
  | 0, _, _, result => result
  | fuel+1, n, term, result =>
      let term :=
        (((term.mul x2).mul (.fin ((2 * n - 1 : ℕ) : ℚ) false)).quo
            (.fin ((2 * n : ℕ) : ℚ) false)).quo
          (.fin ((2 * n + 1 : ℕ) : ℚ) false)
      let result := result.add term
      if term.cmp threshold < 0 then result
      else asinTaylorLoop x2 threshold fuel (n + 1) term result

/-- Asin from the sine file: a +Inf sentinel outside [−1, 1] (the function
has no panic path), the half-angle identity with a recursive call for
|x| > 0.95 (the float64 threshold literal 0.95 is modelled as 19/20), and
the arcsine Taylor series otherwise.  The fuel bounds the recursion, whose
depth from the entry point is at most 2 (the recursive argument is below
√0.025 < 0.95); the fuel-0 fallback is unreachable. -/
def AsinF : ℕ → BF → BF
  | 0, _ => bigNewFloat 0
  | fuel+1, x =>
      let precision := x.prec
      if x.val.cmp (.fin 1 false) > 0 ∨ x.val.cmp (.fin (-1) false) < 0 then
        ⟨.inf false, precision⟩
      else
        let absV := x.val.abs
        if absV.cmp (.fin (19/20) false) > 0 then
          let halfPi := bigPi.val.quo (.fin 2 false)
          if x.val.sign ≥ 0 then
            let temp := ((BFVal.fin 1 false).sub x.val).quo (.fin 2 false)
            let temp := bfSqrtModel temp
            let temp := (AsinF fuel (bfAt precision temp)).val
            let temp := temp.mul (.fin 2 false)
            bfAt precision (halfPi.sub temp)
          else
            let temp := ((BFVal.fin 1 false).add x.val).quo (.fin 2 false)
            let temp := bfSqrtModel temp
            let temp := (AsinF fuel (bfAt precision temp)).val
            let temp := temp.mul (.fin 2 false)
            bfAt precision (temp.sub halfPi)
        else
          let threshold : BFVal := .fin (1 / ((10 ^ (precision / 4) : ℕ) : ℚ)) false
          let x2 := x.val.mul x.val
          bfAt precision (asinTaylorLoop x2 threshold 199 1 x.val x.val)

/-- Asin at the default recursion fuel. -/
def Asin (x : BF) : BF := AsinF 3 x

/-- Acos from the cosine file: a +Inf sentinel outside [−1, 1] (the
function has no panic path), otherwise π/2 − arcsin x at the input
precision. -/
def Acos (x : BF) : BF :=
  let precision := x.prec
  if x.val.cmp (.fin 1 false) > 0 ∨ x.val.cmp (.fin (-1) false) < 0 then
    ⟨.inf false, precision⟩
  else
    let halfPi := bigPi.val.quo (.fin 2 false)
    let arcsinX := Asin x
    bfAt precision (halfPi.sub arcsinX.val)

/-- The iteration count reported by a capped loop (0 for a panic). -/
def usedOf (r : Except GoPanic IterOut) : ℕ :=
  match r with
  | .ok o => o.used
  | .error _ => 0

/-- The tolerance schedule exactly as the specification states it, with the
exponents computed by the source's integer division; used to compare the
code's tolerance against the claim. -/
def tieredToleranceSpec (p : ℕ) : ℚ :=
  if 512 ≤ p then qPow2 (-((p / 8 : ℕ) : ℤ))
  else if 256 ≤ p then qPow2 (-((p / 3 : ℕ) : ℤ))
  else if 128 ≤ p then qPow2 (-((p / 2 : ℕ) : ℤ))
  else if 64 ≤ p then qPow2 (-(p : ℤ) + 8)
  else qPow2 (-(p : ℤ) + 4)

attribute [local semireducible] Rat.mul Rat.add Rat.sub Rat.inv Rat.ofScientific

/-- Unfolding of cmp on two finite values. -/
theorem cmp_fin_fin (a b : ℚ) (na nb : Bool) :
    BFVal.cmp (.fin a na) (.fin b nb) = if a < b then -1 else if b < a then 1 else 0 := rfl

/-- Two finite values compare equal exactly when their rationals agree. -/
theorem cmp_fin_eq_zero {a b : ℚ} {na nb : Bool} :
    BFVal.cmp (.fin a na) (.fin b nb) = 0 ↔ a = b := by
  rw [cmp_fin_fin]
  split_ifs with h1 h2
  · exact iff_of_false (by norm_num) (ne_of_lt h1)
  · exact iff_of_false (by norm_num) (ne_of_gt h2)
  · exact iff_of_true rfl (le_antisymm (not_lt.1 h2) (not_lt.1 h1))

/-- A positive comparison of finite values means strictly greater. -/
theorem cmp_fin_pos {a b : ℚ} {na nb : Bool} :
    BFVal.cmp (.fin a na) (.fin b nb) > 0 ↔ b < a := by
  rw [cmp_fin_fin]
  split_ifs with h1 h2
  · exact iff_of_false (by norm_num) (fun h => absurd h (asymm h1))
  · exact iff_of_true (by norm_num) h2
  · exact iff_of_false (by norm_num) h2

/-- Unfolding of sign on a finite value. -/
theorem sign_fin (q : ℚ) (nz : Bool) :
    (BFVal.fin q nz).sign = if q < 0 then -1 else if 0 < q then 1 else 0 := rfl

/-- Every value the float64 rounding returns is below the overflow
threshold 2^1024. -/
theorem f64RoundPos_lt_of_some {q r : ℚ} (h : f64RoundPos q = some r) : r < qPow2 1024 := by
  unfold f64RoundPos at h
  set g : ℤ := if -1022 ≤ qFloorLog2 q then qFloorLog2 q - 52 else -1074 with hg
  by_cases hc : qPow2 1024 ≤ (roundHalfEven (q * qPow2 (-g)) : ℚ) * qPow2 g
  · rw [if_pos hc] at h; exact absurd h (by simp)
  · rw [if_neg hc] at h
    rw [Option.some_inj] at h
    rw [← h]
    exact not_le.mp hc

/-- An exact float64 conversion of a positive rational means the rounding
returned the value itself. -/
theorem f64FromQ_exact_eq {q : ℚ} (hq : 0 < q) (h : (f64FromQ q).2 = .exact) :
    f64RoundPos q = some q := by
  unfold f64FromQ at h
  rw [if_neg (ne_of_gt hq), if_pos hq] at h
  cases hr : f64RoundPos q with
  | none => rw [hr] at h; simp at h
  | some r =>
      rw [hr] at h
      simp only [] at h
      by_cases hne : r = q
      · rw [hne]
      · rw [if_neg hne] at h; split at h <;> simp_all

/-- The fueled log2 overestimates nothing: n is below 2^(log2 n + 1). -/
theorem natLog2F_bound : ∀ fuel n : ℕ, n ≤ fuel → n < 2 ^ (natLog2F fuel n + 1) := by
  intro fuel
  induction fuel with
  | zero => intro n hn; interval_cases n; simp [natLog2F]
  | succ fuel ih =>
      intro n hn
      unfold natLog2F
      by_cases h1 : n ≤ 1
      · rw [if_pos h1]; omega
      · rw [if_neg h1]
        have hd : n / 2 ≤ fuel := by omega
        have h2 : n / 2 < 2 ^ (natLog2F fuel (n / 2) + 1) := ih (n / 2) hd
        have h3 : n < 2 ^ (natLog2F fuel (n / 2) + 1 + 1) := by rw [pow_succ]; omega
        omega

/-- n is below 2^(natLog2 n + 1). -/
theorem natLog2_bound (n : ℕ) : n < 2 ^ (natLog2 n + 1) := natLog2F_bound n n le_rfl

/-- The scale-down loop finishes within its fuel whenever the fuel covers
the magnitude of the input. -/
theorem scaleDownF_isSome : ∀ (fuel : ℕ) (q : ℚ) (k : ℤ),
    q ≤ 2 ^ fuel * 2 → (scaleDownF fuel q k).isSome := by
  intro fuel
  induction fuel with
  | zero =>
      intro q k h
      unfold scaleDownF
      rw [if_neg (by push_neg; simpa using h)]
      rfl
  | succ fuel ih =>
      intro q k h
      unfold scaleDownF
      by_cases hq : 2 < q
      · rw [if_pos hq]
        apply ih
        rw [pow_succ] at h
        linarith
      · rw [if_neg hq]; rfl

/-- The scale-up loop finishes within its fuel whenever the fuel covers the
smallness of the input. -/
theorem scaleUpF_isSome : ∀ (fuel : ℕ) (q : ℚ) (k : ℤ),
    1 / 2 ≤ 2 ^ fuel * q → (scaleUpF fuel q k).isSome := by
  intro fuel
  induction fuel with
  | zero =>
      intro q k h
      unfold scaleUpF
      rw [if_neg (by push_neg; simpa using h)]
      rfl
  | succ fuel ih =>
      intro q k h
      unfold scaleUpF
      by_cases hq : q < 1 / 2
      · rw [if_pos hq]
        apply ih
        rw [pow_succ] at h
        linarith

      · rw [if_neg hq]; rfl

/-- A successful scale-down leaves either a value above 1 or the input
itself, and keeps positivity. -/
theorem scaleDownF_stable : ∀ (fuel : ℕ) (q : ℚ) (k : ℤ) (q1 : ℚ) (k1 : ℤ),
    0 < q → scaleDownF fuel q k = some (q1, k1) → (1 < q1 ∨ q1 = q) ∧ 0 < q1 := by
  intro fuel
  induction fuel with
  | zero =>
      intro q k q1 k1 hq h
      unfold scaleDownF at h
      split at h
      · simp at h
      · rw [Option.some_inj] at h
        cases h
        exact ⟨Or.inr rfl, hq⟩
  | succ fuel ih =>
      intro q k q1 k1 hq h
      unfold scaleDownF at h
      split at h
      · next h2 =>
          have h3 := ih (q / 2) (k + 1) q1 k1 (by linarith) h
          refine ⟨Or.inl ?_, h3.2⟩
          rcases h3.1 with h4 | h4
          · exact h4
          · rw [h4]; linarith
      · rw [Option.some_inj] at h
        cases h
        exact ⟨Or.inr rfl, hq⟩

/-- The scale-up loop returns at once when the input is not small. -/
theorem scaleUpF_isSome_of_ge (fuel : ℕ) (q : ℚ) (k : ℤ) (h : ¬ q < 1 / 2) :
    (scaleUpF fuel q k).isSome := by
  cases fuel <;> · unfold scaleUpF; rw [if_neg h]; rfl

/-- The Newton loop executes at most its fuel many iterations. -/
theorem newtonLoop_used_le :
    ∀ (fuel prec : ℕ) (x : BF) (tol relTol : ℚ) (g : BFVal) (prev : Option BFVal),
      usedOf (newtonLoop prec x tol relTol fuel g prev) ≤ fuel := by
  intro fuel
  induction fuel with
  | zero => intro prec x tol relTol g prev; simp [newtonLoop, usedOf]
  | succ fuel ih =>
      intro prec x tol relTol g prev
      have hmap : ∀ (g' : BFVal) (p' : Option BFVal),
          usedOf ((newtonLoop prec x tol relTol fuel g' p').map
            (fun r => (⟨r.value, r.used + 1⟩ : IterOut))) ≤ fuel + 1 := by
        intro g' p'
        have hle := ih prec x tol relTol g' p'
        cases h : newtonLoop prec x tol relTol fuel g' p' with
        | error e => simp [usedOf, Except.map]
        | ok o => rw [h] at hle; simp [usedOf, Except.map] at hle ⊢; omega
      unfold newtonLoop
      simp only []
      repeat' split
      all_goals first | exact hmap _ _ | simp [usedOf]

/-- The Halley loop executes at most its fuel many iterations. -/
theorem halleyLoop_used_le :
    ∀ (fuel prec : ℕ) (x : BF) (tol relTol : ℚ) (y : BFVal) (prev : Option BFVal),
      usedOf (halleyLoop prec x tol relTol fuel y prev) ≤ fuel := by
  intro fuel
  induction fuel with
  | zero => intro prec x tol relTol y prev; simp [halleyLoop, usedOf]
  | succ fuel ih =>
      intro prec x tol relTol y prev
      have hmap : ∀ (y' : BFVal) (p' : Option BFVal),
          usedOf ((halleyLoop prec x tol relTol fuel y' p').map
            (fun r => (⟨r.value, r.used + 1⟩ : IterOut))) ≤ fuel + 1 := by
        intro y' p'
        have hle := ih prec x tol relTol y' p'
        cases h : halleyLoop prec x tol relTol fuel y' p' with
        | error e => simp [usedOf, Except.map]
        | ok o => rw [h] at hle; simp [usedOf, Except.map] at hle ⊢; omega
      unfold halleyLoop
      simp only []
      repeat' split
      all_goals first | exact hmap _ _ | simp [usedOf]

/-- The Taylor loop executes at most its fuel many iterations. -/
theorem taylorLoop_used_le :
    ∀ (fuel : ℕ) (tol u : ℚ) (k : ℤ) (n : ℕ) (term uPower result : ℚ) (prevR : Option ℚ),
      (taylorLoop tol u k fuel n term uPower result prevR).2 ≤ fuel := by
  intro fuel
  induction fuel with
  | zero => intro tol u k n term uPower result prevR; simp [taylorLoop]
  | succ fuel ih =>
      intro tol u k n term uPower result prevR
      unfold taylorLoop
      simp only []
      repeat' split
      all_goals try simp
      all_goals exact ih tol u k _ _ _ _ _

/-- logTaylor terminates (with either a panic or a value) on every finite
input: the chosen scale-loop fuels suffice. -/
theorem logTaylor_finite_isSome : ∀ x : BF, x.val.isInf = false → (logTaylor x).isSome := by
  intro x hfin
  unfold logTaylor
  by_cases hs : x.val.sign ≤ 0
  · rw [if_pos hs]; rfl
  · rw [if_neg hs]
    obtain ⟨xv, xp⟩ := x
    simp only [] at hs hfin ⊢
    cases xv with
    | inf n => simp [BFVal.isInf] at hfin
    | fin q nz =>
        have hq : 0 < q := by
          rw [sign_fin] at hs
          by_cases h1 : q < 0
          · rw [if_pos h1] at hs; norm_num at hs
          · by_cases h2 : 0 < q
            · exact h2
            · rw [if_neg h1, if_neg h2] at hs; norm_num at hs
        have hden0 : (0 : ℚ) < (q.den : ℚ) := by exact_mod_cast q.pos
        have hnum0 : (0 : ℚ) ≤ (q.num : ℚ) := by
          exact_mod_cast le_of_lt (Rat.num_pos.mpr hq)
        have hnumq : q ≤ ((q.num.natAbs : ℕ) : ℚ) := by
          have h1 : ((q.num : ℚ)) / ((q.den : ℚ)) = q := Rat.num_div_den q
          have h4 : (q.num : ℚ) / (q.den : ℚ) ≤ (q.num : ℚ) :=
            div_le_self hnum0 (by exact_mod_cast q.pos)
          rw [h1] at h4
          have hz : (0 : ℤ) ≤ q.num := by exact_mod_cast hnum0
          have h5 : ((q.num.natAbs : ℕ) : ℚ) = (q.num : ℚ) := by
            rw [Int.cast_natAbs]
            exact congrArg (fun z : ℤ => (z : ℚ)) (abs_of_nonneg hz)
          rwa [← h5] at h4
        have hsd : (scaleDownF (natLog2 q.num.natAbs + 2) q 0).isSome := by
          apply scaleDownF_isSome
          have hbq : ((q.num.natAbs : ℕ) : ℚ) < 2 ^ (natLog2 q.num.natAbs + 1) := by
            exact_mod_cast natLog2_bound q.num.natAbs
          have hstep : (2 : ℚ) ^ (natLog2 q.num.natAbs + 1) ≤ 2 ^ (natLog2 q.num.natAbs + 2) * 2 := by
            rw [← pow_succ]
            exact pow_le_pow_right (by norm_num) (by omega)
          linarith
        obtain ⟨⟨q1, k1⟩, h1⟩ := Option.isSome_iff_exists.mp hsd
        simp only [h1]
        have hst := scaleDownF_stable _ q 0 q1 k1 hq h1
        have hsu : (scaleUpF (natLog2 q.den + 2) q1 k1).isSome := by
          rcases hst.1 with hgt | heq
          · exact scaleUpF_isSome_of_ge _ _ _ (by push_neg; linarith)
          · rw [heq]
            apply scaleUpF_isSome
            set L := natLog2 q.den with hL
            have hden : ((q.den : ℕ) : ℚ) < 2 ^ (L + 1) := by
              exact_mod_cast natLog2_bound q.den
            have hqlb : 1 / ((q.den : ℕ) : ℚ) ≤ q := by
              have h2 : (1 : ℚ) ≤ (q.num : ℚ) := by
                exact_mod_cast Rat.num_pos.mpr hq
              have h6 : (1 : ℚ) / (q.den : ℚ) ≤ (q.num : ℚ) / (q.den : ℚ) := by gcongr
              rwa [Rat.num_div_den] at h6
            have hstep2 : ((q.den : ℚ)) ≤ 2 ^ (L + 1) := le_of_lt hden
            have h12 : 1 / (2 : ℚ) ^ (L + 1) ≤ 1 / (q.den : ℚ) :=
              one_div_le_one_div_of_le hden0 hstep2
            have hql : 1 / (2 : ℚ) ^ (L + 1) ≤ q := le_trans h12 hqlb
            have hpow : (0 : ℚ) ≤ 2 ^ (L + 2) := by positivity
            have h2ne : (2 : ℚ) ^ (L + 1) ≠ 0 := by positivity
            calc (1 : ℚ) / 2 ≤ 2 := by norm_num
              _ = 2 ^ (L + 2) * (1 / 2 ^ (L + 1)) := by
                  rw [pow_succ]
                  field_simp
              _ ≤ 2 ^ (L + 2) * q := mul_le_mul_of_nonneg_left hql hpow
        obtain ⟨⟨qW, k⟩, h2⟩ := Option.isSome_iff_exists.mp hsu
        simp only [h2]
        split <;> simp

/-- C1: the claim says Pow(x, y) with an integer exponent, including
negative y, returns x^y (1/x^|y| for negative y) by binary exponentiation.
Evaluating the embedded code at the failing input x = 2, y = −2 shows Pow
returns 4 = x^|y| — the in-place y.Abs(y) replaces y by |y| before the
Int64 extraction, so PowInt receives +2 — and leaves the argument y set to
2, while the claimed (and Pow's own documented x**y) result is 1/4. -/
theorem pow_negative_exponent_returns_abs_power :
    PowM (bigNewFloat 2) (bigNewFloat (-2)) =
      .ok (⟨.fin 4 false, 53⟩, ⟨.fin 2 false, 53⟩) ∧ (4 : ℚ) ≠ 1 / 4 :=
  ⟨by decide, by decide⟩

/-- C2: Pow evaluates its special cases in the documented priority order:
Pow(x, 0) = 1 for every base x (the exponent-zero test fires first, so this
covers zeros and infinities), hence Pow(0, 0) = 1; Pow(0, −1) = +Inf; and
every finite negative base with a finite non-integer exponent yields the
+Inf sentinel, e.g. Pow(−2, 0.5) = +Inf. -/
theorem pow_special_cases_priority :
    (∀ x : BF, PowM x (bigNewFloat 0) = .ok (bigNewFloat 1, bigNewFloat 0)) ∧
    PowM (bigNewFloat 0) (bigNewFloat 0) = .ok (bigNewFloat 1, bigNewFloat 0) ∧
    PowM (bigNewFloat 0) (bigNewFloat (-1)) = .ok (⟨.inf false, 53⟩, bigNewFloat (-1)) ∧
    (∀ (x y : BF) (qx qy : ℚ) (nx ny : Bool),
      x.val = .fin qx nx → qx < 0 → y.val = .fin qy ny → qy.den ≠ 1 →
      PowM x y = .ok (⟨.inf false, 53⟩, y)) ∧
    PowM (bigNewFloat (-2)) (bigNewFloat (1/2)) =
      .ok (⟨.inf false, 53⟩, bigNewFloat (1/2)) := by
  refine ⟨fun _ => rfl, rfl, by decide, ?_, by decide⟩
  intro x y qx qy nx ny hx hqx hy hqy
  have hqy0 : qy ≠ 0 := fun h => hqy (h ▸ rfl)
  have hqy1 : qy ≠ 1 := fun h => hqy (h ▸ rfl)
  have hqx0 : qx ≠ 0 := ne_of_lt hqx
  have hqx1 : qx ≠ 1 := by intro h; rw [h] at hqx; norm_num at hqx
  simp only [PowM, hx, hy]
  rw [if_neg (fun h => hqy0 (cmp_fin_eq_zero.mp h)),
      if_neg (fun h => hqx1 (cmp_fin_eq_zero.mp h)),
      if_neg (fun h => hqy1 (cmp_fin_eq_zero.mp h)),
      if_neg (fun h => hqx0 (cmp_fin_eq_zero.mp h))]
  simp only [BFVal.isInf, Bool.false_eq_true, and_false, false_and, if_false, ite_false]
  have hcond : (BFVal.fin qx nx).sign < 0 ∧ ¬(BFVal.fin qy ny).isInt = true := by
    constructor
    · rw [sign_fin, if_pos hqx]; norm_num
    · simp [BFVal.isInt, hqy]
  rw [if_pos hcond]

/-- Witness for C2's hypothesised part at the concrete input (−2, 1/2). -/
theorem pow_special_cases_priority_witness :
    ((bigNewFloat (-2)).val = BFVal.fin (-2) false ∧ (-2 : ℚ) < 0 ∧
      (bigNewFloat (1/2)).val = BFVal.fin (1/2) false ∧ (1/2 : ℚ).den ≠ 1) ∧
    PowM (bigNewFloat (-2)) (bigNewFloat (1/2)) =
      .ok (⟨.inf false, 53⟩, bigNewFloat (1/2)) :=
  ⟨⟨rfl, by norm_num, rfl, by decide⟩,
   pow_special_cases_priority.2.2.2.1 (bigNewFloat (-2)) (bigNewFloat (1/2))
     (-2) (1/2) false false rfl (by norm_num) rfl (by decide)⟩

/-- C3 counterexample: the claim says Asin and Acos abort the call chain on
arguments outside [−1, 1]; the embedded functions are total — their sources
have no panic path — and return the +Inf sentinel instead, here at the
input 2. -/
theorem asin_acos_sentinel_counterexample :
    Asin (bigNewFloat 2) = ⟨.inf false, 53⟩ ∧ Acos (bigNewFloat 2) = ⟨.inf false, 53⟩ :=
  ⟨by decide, by decide⟩

/-- C3 amended: Log aborts the call chain (panics) for every non-positive
input, as claimed; but Asin and Acos answer out-of-range arguments with the
+Inf sentinel at the input precision rather than aborting. -/
theorem domain_violation_amended :
    (∀ x : BF, x.val.sign ≤ 0 → Log x = .error .domain) ∧
    (∀ x : BF, (x.val.cmp (.fin 1 false) > 0 ∨ x.val.cmp (.fin (-1) false) < 0) →
      Asin x = ⟨.inf false, x.prec⟩ ∧ Acos x = ⟨.inf false, x.prec⟩) := by
  constructor
  · intro x h
    unfold Log
    rw [if_pos h]
  · intro x h
    constructor
    · show AsinF 3 x = _
      unfold AsinF
      rw [if_pos h]
    · unfold Acos
      rw [if_pos h]

/-- Witness for C3 amended at the concrete inputs −1 (Log) and 2 (Asin). -/
theorem domain_violation_amended_witness :
    ((bigNewFloat (-1)).val.sign ≤ 0 ∧ Log (bigNewFloat (-1)) = .error .domain) ∧
    ((bigNewFloat 2).val.cmp (.fin 1 false) > 0 ∧
      Asin (bigNewFloat 2) = ⟨.inf false, (bigNewFloat 2).prec⟩) :=
  ⟨⟨by decide, domain_violation_amended.1 (bigNewFloat (-1)) (by decide)⟩,
   ⟨by decide, (domain_violation_amended.2 (bigNewFloat 2) (Or.inl (by decide))).1⟩⟩

/-- C4 counterexample: the claim says every entry point returns a value at
the input's bit-precision on every path; but Pow of a 256-bit base with
exponent 0 returns the fast-path big.NewFloat(1), whose precision is the
53-bit default. -/
theorem pow_fast_path_precision_counterexample :
    (PowM (⟨.fin 2 false, 256⟩ : BF) (bigNewFloat 0)).map (fun r => r.1.prec) = .ok 53 ∧
    (53 : ℕ) ≠ 256 :=
  ⟨by decide, by decide⟩

/-- C4 amended: Exp preserves the input precision on every path (for any
positive precision); but the special-case fast paths allocate fresh
default-precision values instead: Pow(x, 0) returns the 53-bit
big.NewFloat(1) for every base, and Log(1) returns the 53-bit
big.NewFloat(0) at every input precision. -/
theorem precision_preservation_amended :
    (∀ x : BF, 1 ≤ x.prec → (Exp x).prec = x.prec) ∧
    (∀ x : BF, (PowM x (bigNewFloat 0)).map (fun r => r.1.prec) = .ok 53) ∧
    (∀ p : ℕ, Log (⟨.fin 1 false, p⟩ : BF) = .ok (bigNewFloat 0)) := by
  refine ⟨?_, fun _ => rfl, fun _ => rfl⟩
  intro x hp
  have hp0 : x.prec ≠ 0 := by omega
  unfold Exp
  simp only []
  split_ifs with h1 h2 h3 <;> simp [BF.setPrec, bigNewFloat, hp0]

/-- Witness for C4 amended at a 256-bit input to Exp. -/
theorem precision_preservation_amended_witness :
    1 ≤ (⟨.fin 2 false, 256⟩ : BF).prec ∧
      (Exp (⟨.fin 2 false, 256⟩ : BF)).prec = (⟨.fin 2 false, 256⟩ : BF).prec :=
  ⟨by decide, precision_preservation_amended.1 (⟨.fin 2 false, 256⟩ : BF) (by decide)⟩

set_option maxRecDepth 400000 in
/-- C5: the claim says no call modifies its argument objects and repeated
calls are idempotent; evaluating the embedded code shows Pow(2, −2) leaves
its argument y set to 2 (y.Abs(y) writes through), and FactorialFloat(1/2)
leaves its argument x set to 3/2 (x.Add(x, 1) writes through), so a second
call with the same object computes the factorial of 3/2 instead of 1/2. -/
theorem pow_factorial_argument_mutation :
    (PowM (bigNewFloat 2) (bigNewFloat (-2))).map Prod.snd = .ok ⟨.fin 2 false, 53⟩ ∧
    (FactorialFloat (bigNewFloat (1/2))).map Prod.snd = .ok ⟨.fin (3/2) false, 53⟩ ∧
    (⟨.fin 2 false, 53⟩ : BF) ≠ bigNewFloat (-2) ∧
    (⟨.fin (3/2) false, 53⟩ : BF) ≠ bigNewFloat (1/2) := by
  refine ⟨by decide, ?_, by decide, by decide⟩
  decide

set_option maxRecDepth 400000 in
/-- C6: for every integer n with 1 ≤ n ≤ 170, Gamma(n) equals (n−1)!
exactly — the positive-integer fast path delegates to the exact big.Int
factorial; stated as Gamma(m+1) = m! for every m below 170 (so Gamma(5) =
24 and Gamma(10) = 362880 are instances). -/
theorem gamma_integer_factorial :
    ∀ n : ℕ, n < 170 →
      (Gamma (bigNewFloat ((n + 1 : ℕ) : ℚ))).map BF.q = .ok ((Nat.factorial n : ℕ) : ℚ) := by
  decide

/-- Witness for C6 at n = 4: Gamma(5) = 4! = 24. -/
theorem gamma_integer_factorial_witness :
    4 < 170 ∧
      (Gamma (bigNewFloat ((4 + 1 : ℕ) : ℚ))).map BF.q = .ok ((Nat.factorial 4 : ℕ) : ℚ) :=
  ⟨by decide, gamma_integer_factorial 4 (by decide)⟩

set_option maxRecDepth 400000 in
/-- C7: the claim says Log(Exp(x)) recovers x within the precision-scaled
tolerance tier; evaluating the embedded code at x = 2 with 128-bit
precision shows that Exp(2) is not exactly representable as a float64, so
Log takes its inexact-conversion branch and returns the constant 700 —
away from 2 by far more than the 2^(−p/2) tier for p = 128.  The model's
exact-series Exp value differs from Go's rounded one, but any result with
more than 53 significant bits triggers the same branch. -/
theorem log_exp_roundtrip_returns_700 :
    (Log (Exp (⟨.fin 2 false, 128⟩ : BF))).map BF.q = .ok 700 ∧
    qPow2 (-(128 / 2 : ℕ)) < |(700 : ℚ) - 2| :=
  ⟨by decide, by decide⟩

set_option maxRecDepth 400000 in
/-- C8 counterexample: at bit-precision 8600 the top tier's exponent
−(8600/8) = −1075 underflows the float64 Ldexp, so the code's tolerance is
0, not the claimed 2^(−p/8). -/
theorem log_tolerance_underflow_counterexample :
    (logToleranceForPrecision 8600).q = 0 ∧ (0 : ℚ) ≠ qPow2 (-((8600 / 8 : ℕ) : ℤ)) :=
  ⟨by decide, by decide⟩

/-- C8 amended: the logarithm tolerance equals the claimed tiered schedule
(with the source's integer division in the exponents) for every precision
below 8600; from 8600 upward the top tier underflows float64 to 0 (see the
counterexample). -/
theorem log_tolerance_tiers_amended :
    ∀ p : ℕ, p < 8600 → (logToleranceForPrecision p).q = tieredToleranceSpec p := by
  intro p hp
  show (if 512 ≤ p then ldexpOne (-((p / 8 : ℕ) : ℤ))
     else if 256 ≤ p then ldexpOne (-((p / 3 : ℕ) : ℤ))
     else if 128 ≤ p then ldexpOne (-((p / 2 : ℕ) : ℤ))
     else if 64 ≤ p then ldexpOne (-(p : ℤ) + 8)
     else ldexpOne (-(p : ℤ) + 4)) = tieredToleranceSpec p
  unfold tieredToleranceSpec ldexpOne
  split_ifs with h1 h2 h3 h4 h5 h6 h7 h8 h9 <;> first | rfl | (exfalso; omega)

/-- Witness for C8 amended at p = 512: the tolerance is 2^(−64). -/
theorem log_tolerance_tiers_amended_witness :
    512 < 8600 ∧ (logToleranceForPrecision 512).q = tieredToleranceSpec 512 :=
  ⟨by decide, log_tolerance_tiers_amended 512 (by decide)⟩

/-- C9 counterexample: the claim says every iterative routine terminates on
every input; logTaylor on the +Inf input never leaves its pre-scaling
while-loop (Cmp(+Inf, 2) > 0 holds forever while Quo(+Inf, 2) = +Inf), and
the embedding models that divergence by the `none` result. -/
theorem log_taylor_divergence_counterexample :
    logTaylor (⟨.inf false, 64⟩ : BF) = none := by decide

/-- C9 amended: each main logarithm loop executes at most its
precision-derived iteration bound — int(3·log2 p)+20 for Newton,
int(2·log2 p)+15 for Halley and 2p+200 for Taylor, each clamped within
[15, 10000] — and returns its current best estimate the moment the cap is
reached (the zero-fuel equations).  Newton and Halley terminate on every
input and Taylor on every finite input; on +Inf the Taylor pre-scaling
loop diverges (see the counterexample). -/
theorem iteration_bounds_amended :
    (∀ p, 15 ≤ newtonMaxIterations p ∧ newtonMaxIterations p ≤ 10000) ∧
    (∀ p, 15 ≤ halleyMaxIterations p ∧ halleyMaxIterations p ≤ 10000) ∧
    (∀ p, 15 ≤ taylorMaxIterations p ∧ taylorMaxIterations p ≤ 10000) ∧
    (∀ (fuel prec : ℕ) (x : BF) (tol relTol : ℚ) (g : BFVal) (prev : Option BFVal),
      usedOf (newtonLoop prec x tol relTol fuel g prev) ≤ fuel) ∧
    (∀ (fuel prec : ℕ) (x : BF) (tol relTol : ℚ) (y : BFVal) (prev : Option BFVal),
      usedOf (halleyLoop prec x tol relTol fuel y prev) ≤ fuel) ∧
    (∀ (fuel : ℕ) (tol u : ℚ) (k : ℤ) (n : ℕ) (term uPower result : ℚ) (prevR : Option ℚ),
      (taylorLoop tol u k fuel n term uPower result prevR).2 ≤ fuel) ∧
    (∀ (prec : ℕ) (x : BF) (tol relTol : ℚ) (g : BFVal) (prev : Option BFVal),
      newtonLoop prec x tol relTol 0 g prev = .ok ⟨g, 0⟩) ∧
    (∀ (prec : ℕ) (x : BF) (tol relTol : ℚ) (y : BFVal) (prev : Option BFVal),
      halleyLoop prec x tol relTol 0 y prev = .ok ⟨y, 0⟩) ∧
    (∀ (tol u : ℚ) (k : ℤ) (n : ℕ) (term uPower result : ℚ) (prevR : Option ℚ),
      taylorLoop tol u k 0 n term uPower result prevR = (taylorFinish k result, 0)) ∧
    (∀ x : BF, x.val.isInf = false → (logTaylor x).isSome) := by
  refine ⟨?_, ?_, ?_, newtonLoop_used_le, halleyLoop_used_le, taylorLoop_used_le,
    fun _ _ _ _ _ _ => rfl, fun _ _ _ _ _ _ => rfl, fun _ _ _ _ _ _ _ _ => rfl,
    logTaylor_finite_isSome⟩
  · intro p
    unfold newtonMaxIterations
    dsimp only []
    split_ifs <;> omega
  · intro p
    unfold halleyMaxIterations
    omega
  · intro p
    unfold taylorMaxIterations
    dsimp only []
    split_ifs <;> omega

/-- Witness for C9 amended at the finite input 10. -/
theorem iteration_bounds_amended_witness :
    (bigNewFloat 10).val.isInf = false ∧ (logTaylor (bigNewFloat 10)).isSome :=
  ⟨by decide,
   iteration_bounds_amended.2.2.2.2.2.2.2.2.2 (bigNewFloat 10) (by decide)⟩

/-- C10: Log's float64-guarded behaviour: a finite input above 1 whose
conversion overflows float64 (accuracy reports rounding toward the range
boundary) yields the constant 700 regardless of magnitude; Log(+Inf) =
+Inf at the input precision; and the Newton/Halley dispatch (Newton for
inputs up to 10^5, Halley above) is reached exactly on exact conversions,
which forces the input below the float64 range bound 2^1024. -/
theorem log_dispatch_and_overflow :
    (∀ (x : BF) (q : ℚ) (nz : Bool), x.val = .fin q nz → 1 < q →
      f64RoundPos q = none → Log x = .ok (bigNewFloat 700)) ∧
    (∀ p : ℕ, Log (⟨.inf false, p⟩ : BF) = .ok (bfInf false p)) ∧
    (∀ (x : BF) (q : ℚ) (nz : Bool), x.val = .fin q nz → 0 < q → q ≠ 1 →
      (f64FromQ q).2 = .exact →
      (Log x = if 100000 < q then logHalley x else logNewton x) ∧ q < qPow2 1024) := by
  refine ⟨?_, fun _ => rfl, ?_⟩
  · intro x q nz hx hq hovf
    have hq0 : q ≠ 0 := by intro h; rw [h] at hq; norm_num at hq
    have hqpos : 0 < q := by linarith
    unfold Log
    simp only [hx]
    rw [if_neg, if_neg]
    · have hacc : (BF.float64 x).2 = .below := by
        simp only [BF.float64, hx, f64FromQ]
        rw [if_neg hq0, if_pos hqpos, hovf]
      rw [hacc]
      simp [BFVal.isInf]
    · exact fun h => absurd (cmp_fin_eq_zero.mp h) (ne_of_gt hq)
    · rw [sign_fin, if_neg (by linarith), if_pos hqpos]; norm_num
  · intro x q nz hx hqpos hq1 hacc
    have hq0 : q ≠ 0 := ne_of_gt hqpos
    constructor
    · unfold Log
      simp only [hx]
      rw [if_neg, if_neg]
      · have hacc2 : (BF.float64 x).2 = .exact := by rw [BF.float64, hx]; exact hacc
        rw [hacc2]
        simp only [reduceCtorEq, or_self, if_false]
        by_cases hd : 100000 < q
        · rw [if_pos (cmp_fin_pos.mpr hd), if_pos hd]
        · rw [if_neg (fun hc => hd (cmp_fin_pos.mp hc)), if_neg hd]
      · exact fun h => hq1 (cmp_fin_eq_zero.mp h)
      · rw [sign_fin, if_neg (by linarith), if_pos hqpos]; norm_num
    · exact f64RoundPos_lt_of_some (f64FromQ_exact_eq hqpos hacc)

set_option maxRecDepth 400000 in
/-- Witness for C10 at the overflowing input 2^1100 and the exactly
convertible input 4. -/
theorem log_dispatch_and_overflow_witness :
    (1 < qPow2 1100 ∧ f64RoundPos (qPow2 1100) = none ∧
      Log (⟨.fin (qPow2 1100) false, 1200⟩ : BF) = .ok (bigNewFloat 700)) ∧
    ((f64FromQ 4).2 = .exact ∧
      (Log (bigNewFloat 4) =
        if (100000 : ℚ) < 4 then logHalley (bigNewFloat 4) else logNewton (bigNewFloat 4))) :=
  ⟨⟨by decide, by decide,
    log_dispatch_and_overflow.1 (⟨.fin (qPow2 1100) false, 1200⟩ : BF) (qPow2 1100) false
      rfl (by decide) (by decide)⟩,
   ⟨by decide,
    (log_dispatch_and_overflow.2.2 (bigNewFloat 4) 4 false rfl (by decide) (by decide)
      (by decide)).1⟩⟩

end Bigmath
